import Mathlib

/-!
Verification of the two components of `moo-python`:

* `src/pymoo/util/clearing.py` — the `EpsilonClearing` engine and
  `select_by_clearing` / `func_select_by_objective`;
* `src/pymoo/model/algorithm.py` — the abstract `Algorithm` driver
  (`solve`, `_solve`, `_each_iteration`).

The embedding is a shallow, purely functional translation: numpy arrays
become lists over `ℚ`, the mutable `self` state of `EpsilonClearing`
becomes an explicit state record threaded through the operations, the
`while` loops get an explicit fuel argument, and code paths that raise a
Python exception (missing termination criterion, out-of-bounds indexing)
return `Except.error` / run out with an error value.
-/

/-! ## Part 1: `pymoo/util/clearing.py` -/

/-- State of the `EpsilonClearing` class: distance matrix `D`, its size
`n = len(D)`, threshold `epsilon`, selected indices `S` and the cleared
mask `C` (a Bool list of length `n` in every reachable state). -/
structure EpsilonClearing where
  D : List (List ℚ)
  n : ℕ
  epsilon : ℚ
  S : List ℕ
  C : List Bool
  deriving Repr, DecidableEq

namespace EpsilonClearing

/-- Constructor `__init__(D, epsilon)`: stores `D`, sets `n = len(D)`, `S = []`,
`C = np.full(n, False)`. -/
def init (D : List (List ℚ)) (epsilon : ℚ) : EpsilonClearing :=
  { D := D, n := D.length, epsilon := epsilon, S := [], C := List.replicate D.length false }

/-- Method `remaining()`: `np.where(~C)[0]` — the indices `i < len(C)` with
`C[i]` false, in ascending order. -/
def remaining (s : EpsilonClearing) : List ℕ :=
  (List.range s.C.length).filter (fun i => !(s.C.getD i true))

/-- Method `has_remaining()`: `C.sum() != n`. -/
def has_remaining (s : EpsilonClearing) : Bool :=
  s.C.count true != s.n

/-- Method `cleared()`: returns the mask `C`. -/
def cleared (s : EpsilonClearing) : List Bool := s.C

/-- Method `selected()`: returns the selection list `S`. -/
def selected (s : EpsilonClearing) : List ℕ := s.S

/-- Method `reset()`: `C = np.full(n, False); C[S] = True` — the mask becomes
true exactly at the indices occurring in `S`. -/
def reset (s : EpsilonClearing) : EpsilonClearing :=
  { s with C := (List.range s.n).map (fun i => decide (i ∈ s.S)) }

/-- Pointwise boolean-mask assignment `C[mask] = True`:
entry `j` of the result is `C[j] || mask[j]`. -/
def maskSet (C mask : List Bool) : List Bool :=
  C.zipWith (fun c m => c || m) mask

/-- Method `select(k)`: `S.append(k); C[k] = True; C[D[k] < epsilon] = True`. -/
def select (s : EpsilonClearing) (k : ℕ) : EpsilonClearing :=
  { s with
    S := s.S ++ [k]
    C := maskSet ((s.C).set k true) ((s.D.getD k []).map (fun d => decide (d < s.epsilon))) }

end EpsilonClearing

/-- Function `func_select_by_objective(pop)` returns `F[:, 0].argmin()`; np.argmin
returns the FIRST index attaining the minimum. -/
def argminQ : List ℚ → ℕ
  | [] => 0
  | [_] => 0
  | x :: y :: xs =>
      let j := argminQ (y :: xs)
      if x ≤ (y :: xs).getD j 0 then 0 else j + 1

/-! ### Basic lemmas about `argminQ` -/

theorem argminQ_cons_cons (x y : ℚ) (xs : List ℚ) :
    argminQ (x :: y :: xs) =
      if x ≤ (y :: xs).getD (argminQ (y :: xs)) 0 then 0 else argminQ (y :: xs) + 1 := rfl

theorem argminQ_lt_length : ∀ (l : List ℚ), l ≠ [] → argminQ l < l.length
  | [], h => absurd rfl h
  | [_], _ => Nat.zero_lt_one
  | x :: y :: xs, _ => by
      have ih := argminQ_lt_length (y :: xs) (by simp)
      rw [argminQ_cons_cons]
      by_cases hx : x ≤ (y :: xs).getD (argminQ (y :: xs)) 0
      · rw [if_pos hx]; simp
      · rw [if_neg hx]
        simp only [List.length_cons] at ih ⊢
        omega

theorem argminQ_min : ∀ (l : List ℚ), ∀ j < l.length,
    l.getD (argminQ l) 0 ≤ l.getD j 0
  | [], j, hj => by simp at hj
  | [a], j, hj => by
      have : j = 0 := by simpa using Nat.lt_one_iff.mp (by simpa using hj)
      subst this
      exact le_refl _
  | x :: y :: xs, j, hj => by
      have ih := argminQ_min (y :: xs)
      rw [argminQ_cons_cons]
      by_cases hx : x ≤ (y :: xs).getD (argminQ (y :: xs)) 0
      · rw [if_pos hx]
        match j with
        | 0 => exact le_refl _
        | j + 1 =>
          have hj' : j < (y :: xs).length := by simpa using hj
          have := ih j hj'
          simp only [List.getD_cons_succ, List.getD_cons_zero]
          exact le_trans hx this
      · rw [if_neg hx]
        match j with
        | 0 =>
          push_neg at hx
          simpa using le_of_lt hx
        | j + 1 =>
          have hj' : j < (y :: xs).length := by simpa using hj
          simpa using ih j hj'

/-- Strictness before the argmin index: np.argmin picks the first
occurrence of the minimum, so every earlier entry is strictly larger. -/
theorem argminQ_first : ∀ (l : List ℚ), ∀ j < argminQ l,
    l.getD (argminQ l) 0 < l.getD j 0
  | [], j, hj => by simp [argminQ] at hj
  | [_], j, hj => by simp [argminQ] at hj
  | x :: y :: xs, j, hj => by
      rw [argminQ_cons_cons] at hj ⊢
      by_cases hx : x ≤ (y :: xs).getD (argminQ (y :: xs)) 0
      · rw [if_pos hx] at hj
        exact absurd hj (Nat.not_lt_zero j)
      · rw [if_neg hx] at hj ⊢
        match j with
        | 0 =>
          push_neg at hx
          simpa using hx
        | j + 1 =>
          have := argminQ_first (y :: xs) j (by omega)
          simpa using this

/-- An `Individual` of the framework: decision vector `X`, objective
vector `F`, constraint violation `CV`, constraint vector `G` and the
derived `feasible` flag. -/
structure Individual where
  X : List ℚ
  F : List ℚ
  CV : ℚ
  G : List ℚ
  feasible : Bool
  deriving Repr, DecidableEq

/-- A `Population` is an ordered, indexable collection of individuals. -/
abbrev Population := List Individual

/-- Function `func_select_by_objective(pop)`: `pop.get("F")[:, 0].argmin()` — the
first index minimising the first objective value. -/
def func_select_by_objective (pop : Population) : ℕ :=
  argminQ (pop.map (fun ind => ind.F.getD 0 0))

/-- numpy fancy indexing `l[I]`: pick the entries of `l` at the indices
in `I`; an out-of-range index raises (here: `none`). -/
def getIndices {α : Type} (l : List α) : List ℕ → Option (List α)
  | [] => some []
  | i :: is =>
      match l.get? i, getIndices l is with
      | some a, some r => some (a :: r)
      | _, _ => none

/-- The `while` loop of `select_by_clearing`, with explicit fuel.  Note
the faithful translation of the loop body: `remaining` is captured
BEFORE the emptiness test, `reset()` is applied to the clearing state,
but the pick `remaining[func_select(pop[remaining])]` still uses the
stale `remaining` list. -/
def selectByClearingLoop (pop : Population) (n_select : ℕ)
    (func_select : Population → ℕ) :
    EpsilonClearing → ℕ → Except String (List ℕ)
  | _, 0 => .error "fuel exhausted"
  | clearing, fuel + 1 =>
      if clearing.selected.length < n_select then
        let remaining := clearing.remaining
        let clearing' := if remaining.length = 0 then clearing.reset else clearing
        match getIndices pop remaining with
        | none => .error "IndexError"
        | some sub =>
            match remaining.get? (func_select sub) with
            | none => .error "IndexError"
            | some best => selectByClearingLoop pop n_select func_select
                (clearing'.select best) fuel
      else .ok clearing.selected

/-- Function `select_by_clearing(pop, D, n_select, func_select, eps=0.05)`. -/
def select_by_clearing (pop : Population) (D : List (List ℚ)) (n_select : ℕ)
    (func_select : Population → ℕ) (eps : ℚ := 5 / 100) (fuel : ℕ := n_select + 1) :
    Except String (List ℕ) :=
  selectByClearingLoop pop n_select func_select (EpsilonClearing.init D eps) fuel

/-! ### List helper lemmas (indexing with `getD`) -/

theorem listGetD_indep {α : Type} (l : List α) (j : ℕ) (d d' : α) (h : j < l.length) :
    l.getD j d = l.getD j d' := by
  induction l generalizing j with
  | nil => simp at h
  | cons a l ih =>
      match j with
      | 0 => rfl
      | j + 1 => exact ih j (by simpa using h)

theorem listGetD_set_self (l : List Bool) (k : ℕ) (h : k < l.length) :
    (l.set k true).getD k false = true := by
  induction l generalizing k with
  | nil => simp at h
  | cons a l ih =>
      match k with
      | 0 => rfl
      | k + 1 => exact ih k (by simpa using h)

theorem listGetD_set_mono (l : List Bool) (k j : ℕ)
    (h : l.getD j false = true) : (l.set k true).getD j false = true := by
  induction l generalizing k j with
  | nil => simp [List.getD] at h
  | cons a l ih =>
      match k, j with
      | 0, 0 => rfl
      | 0, j + 1 => exact h
      | k + 1, 0 => exact h
      | k + 1, j + 1 => exact ih k j h

theorem listGetD_maskSet (C mask : List Bool) (h : C.length = mask.length) (j : ℕ) :
    (EpsilonClearing.maskSet C mask).getD j false = (C.getD j false || mask.getD j false) := by
  induction C generalizing mask j with
  | nil =>
      match mask with
      | [] => simp [EpsilonClearing.maskSet, List.getD]
      | _ :: _ => simp at h
  | cons c C ih =>
      match mask with
      | [] => simp at h
      | m :: mask =>
          match j with
          | 0 => rfl
          | j + 1 => exact ih mask (by simpa using h) j

theorem listGetD_map {α β : Type} (f : α → β) (l : List α) (j : ℕ) (d : α) (d' : β)
    (h : j < l.length) : (l.map f).getD j d' = f (l.getD j d) := by
  induction l generalizing j with
  | nil => simp at h
  | cons a l ih =>
      match j with
      | 0 => rfl
      | j + 1 => exact ih j (by simpa using h)

theorem listGetD_length_le {α : Type} (l : List α) (j : ℕ) (d : α) (h : l.length ≤ j) :
    l.getD j d = d := by
  induction l generalizing j with
  | nil => simp [List.getD]
  | cons a l ih =>
      match j with
      | 0 => simp at h
      | j + 1 => exact ih j (by simpa using h)

theorem listGetD_range (n j : ℕ) (h : j < n) : (List.range n).getD j 0 = j := by
  have h' : j < (List.range n).length := by simpa using h
  rw [List.getD_eq_getElem (List.range n) 0 h']
  simp

/-- Membership in `remaining()`: exactly the in-range indices whose
cleared bit is false. -/
theorem EpsilonClearing.mem_remaining (s : EpsilonClearing) (j : ℕ) :
    j ∈ s.remaining ↔ j < s.C.length ∧ s.C.getD j false = false := by
  unfold remaining
  rw [List.mem_filter, List.mem_range]
  constructor
  · rintro ⟨hlt, hb⟩
    refine ⟨hlt, ?_⟩
    rw [listGetD_indep s.C j false true hlt]
    simpa using hb
  · rintro ⟨hlt, hb⟩
    refine ⟨hlt, ?_⟩
    have hout : s.C.getD j true = false := by
      rw [listGetD_indep s.C j true false hlt]; exact hb
    rw [hout]; rfl

/-! ### Claim theorems for the clearing component -/

/-- C7: after `select(k)` on a state whose mask has length `n` and
whose row `D[k]` has length `n` (every reachable, well-formed state):
`k` is appended at the end of `selected()`, `C[k]` is true so `k` is
excluded from `remaining()`, every `j` with `D[k][j] < epsilon` also has
`C[j] = true` and is excluded from `remaining()`, and no entry of `C`
falls back from true to false. -/
theorem C7_select_effect (s : EpsilonClearing) (k : ℕ)
    (hC : s.C.length = s.n) (hrow : (s.D.getD k []).length = s.n) (hk : k < s.n) :
    (s.select k).selected = s.selected ++ [k] ∧
    (s.select k).C.getD k false = true ∧
    k ∉ (s.select k).remaining ∧
    (∀ j < s.n, (s.D.getD k []).getD j 0 < s.epsilon →
      (s.select k).C.getD j false = true ∧ j ∉ (s.select k).remaining) ∧
    (∀ j, s.C.getD j false = true → (s.select k).C.getD j false = true) := by
  have hsetlen : (s.C.set k true).length = s.n := by
    rw [List.length_set]; exact hC
  have hmasklen : ((s.D.getD k []).map (fun d => decide (d < s.epsilon))).length = s.n := by
    rw [List.length_map]; exact hrow
  have hlen : (s.C.set k true).length =
      ((s.D.getD k []).map (fun d => decide (d < s.epsilon))).length := by
    rw [hsetlen, hmasklen]
  have hCk : (s.select k).C.getD k false = true := by
    show (EpsilonClearing.maskSet _ _).getD k false = true
    rw [listGetD_maskSet _ _ hlen k]
    rw [listGetD_set_self s.C k (by rw [hC]; exact hk)]
    rfl
  have hmono : ∀ j, s.C.getD j false = true → (s.select k).C.getD j false = true := by
    intro j hj
    show (EpsilonClearing.maskSet _ _).getD j false = true
    rw [listGetD_maskSet _ _ hlen j]
    rw [listGetD_set_mono s.C k j hj]
    rfl
  have hclear : ∀ j < s.n, (s.D.getD k []).getD j 0 < s.epsilon →
      (s.select k).C.getD j false = true := by
    intro j hjn hdist
    show (EpsilonClearing.maskSet _ _).getD j false = true
    rw [listGetD_maskSet _ _ hlen j]
    have : ((s.D.getD k []).map (fun d => decide (d < s.epsilon))).getD j false = true := by
      rw [listGetD_map (fun d => decide (d < s.epsilon)) (s.D.getD k []) j 0 false
        (by rw [hrow]; exact hjn)]
      exact decide_eq_true hdist
    rw [this, Bool.or_true]
  refine ⟨rfl, hCk, ?_, ?_, hmono⟩
  · intro hmem
    have := ((s.select k).mem_remaining k).mp hmem
    rw [hCk] at this
    exact Bool.true_eq_false ▸ this.2
  · intro j hjn hdist
    refine ⟨hclear j hjn hdist, ?_⟩
    intro hmem
    have := ((s.select k).mem_remaining j).mp hmem
    rw [hclear j hjn hdist] at this
    exact Bool.true_eq_false ▸ this.2

/-- C8: on any state satisfying the reachable-state invariants
(`len(C) = n` and every selected index is marked cleared), `reset()`
leaves `S` unchanged, recomputes `C` as true exactly on the indices in
`S`, and can only grow the remaining pool. -/
theorem C8_reset_effect (s : EpsilonClearing)
    (hC : s.C.length = s.n) (hInv : ∀ i ∈ s.S, s.C.getD i false = true) :
    s.reset.selected = s.selected ∧
    (∀ i < s.n, s.reset.C.getD i false = decide (i ∈ s.S)) ∧
    (∀ j ∈ s.remaining, j ∈ s.reset.remaining) := by
  have hresetC : ∀ i < s.n, s.reset.C.getD i false = decide (i ∈ s.S) := by
    intro i hi
    show ((List.range s.n).map (fun i => decide (i ∈ s.S))).getD i false = _
    rw [listGetD_map (fun i => decide (i ∈ s.S)) (List.range s.n) i 0 false
      (by rw [List.length_range]; exact hi)]
    rw [listGetD_range s.n i hi]
  refine ⟨rfl, hresetC, ?_⟩
  intro j hj
  obtain ⟨hjlt, hjC⟩ := (s.mem_remaining j).mp hj
  have hjn : j < s.n := hC ▸ hjlt
  have hjS : j ∉ s.S := by
    intro hmem
    rw [hInv j hmem] at hjC
    exact Bool.true_eq_false ▸ hjC
  refine (s.reset.mem_remaining j).mpr ⟨?_, ?_⟩
  · show j < ((List.range s.n).map _).length
    rw [List.length_map, List.length_range]
    exact hjn
  · rw [hresetC j hjn]
    exact decide_eq_false hjS

/-- C9: the constructor stores `D` and `epsilon` unchanged with
`S = []` and an all-false mask of length `n = len(D)`, and no operation
ever modifies the stored `D` or `epsilon` (the accessors `remaining`,
`has_remaining`, `cleared` and `selected` are pure functions of the
state, so in this functional model only `select` and `reset` could
modify fields at all). -/
theorem C9_init_and_frame (D : List (List ℚ)) (eps : ℚ) (s : EpsilonClearing) (k : ℕ) :
    (EpsilonClearing.init D eps).S = [] ∧
    (EpsilonClearing.init D eps).C = List.replicate D.length false ∧
    (EpsilonClearing.init D eps).D = D ∧
    (EpsilonClearing.init D eps).epsilon = eps ∧
    (EpsilonClearing.init D eps).n = D.length ∧
    (s.select k).D = s.D ∧ (s.select k).epsilon = s.epsilon ∧ (s.select k).n = s.n ∧
    s.reset.D = s.D ∧ s.reset.epsilon = s.epsilon ∧ s.reset.n = s.n :=
  ⟨rfl, rfl, rfl, rfl, rfl, rfl, rfl, rfl, rfl, rfl, rfl⟩

/-- C10: `reset()` is idempotent — it recomputes `C` purely from
`S` and `n`, which it leaves untouched. -/
theorem C10_reset_idempotent (s : EpsilonClearing) : s.reset.reset = s.reset := rfl

/-- The population of the C1 scenario: two individuals whose first
objectives are `1` and `2`, so `func_select_by_objective` picks index 0
first. -/
def popC1 : Population :=
  [{ X := [0], F := [1], CV := 0, G := [0], feasible := true },
   { X := [0], F := [2], CV := 0, G := [0], feasible := true }]

/-- The 2×2 distance matrix of the C1 scenario: mutual distance `1/2`
(below `epsilon = 1`). -/
def DC1 : List (List ℚ) := [[0, 1/2], [1/2, 0]]

/-- C1 (code bug): with `n_select = 2`, `epsilon = 1` and the matrix
`DC1`, selecting index 0 clears index 1 as well, so the second iteration
sees an empty pool and calls `reset()` — but the loop body never
recomputes the local `remaining` variable after the reset, so the pick
`remaining[func_select(pop[remaining])]` indexes the stale EMPTY
`remaining` array and the call raises instead of returning `[0, 1]`. -/
theorem C1_select_by_clearing_raises :
    select_by_clearing popC1 DC1 2 func_select_by_objective 1 3 = .error "IndexError" := by
  norm_num [select_by_clearing, selectByClearingLoop, EpsilonClearing.init,
    EpsilonClearing.selected, EpsilonClearing.remaining, EpsilonClearing.reset,
    EpsilonClearing.select, EpsilonClearing.maskSet, getIndices,
    func_select_by_objective, argminQ, popC1, DC1, List.range_succ, List.getD, List.set]

/-- C7 witness: the effect of `select(0)` on the freshly constructed
state over `DC1` with `epsilon = 1`. -/
theorem C7_select_effect_witness :
    ((EpsilonClearing.init DC1 1).select 0).selected =
        (EpsilonClearing.init DC1 1).selected ++ [0] ∧
    ((EpsilonClearing.init DC1 1).select 0).C.getD 0 false = true ∧
    0 ∉ ((EpsilonClearing.init DC1 1).select 0).remaining ∧
    (∀ j < (EpsilonClearing.init DC1 1).n,
      ((EpsilonClearing.init DC1 1).D.getD 0 []).getD j 0 < (EpsilonClearing.init DC1 1).epsilon →
      ((EpsilonClearing.init DC1 1).select 0).C.getD j false = true ∧
      j ∉ ((EpsilonClearing.init DC1 1).select 0).remaining) ∧
    (∀ j, (EpsilonClearing.init DC1 1).C.getD j false = true →
      ((EpsilonClearing.init DC1 1).select 0).C.getD j false = true) :=
  C7_select_effect (EpsilonClearing.init DC1 1) 0 (by decide) (by decide) (by decide)

/-- C8 witness: `reset()` after `select(0)` on the `DC1` state — the
selection list stays `[0]`, the mask becomes true exactly on `S`, and
(vacuously here) the remaining pool does not shrink. -/
theorem C8_reset_effect_witness :
    ((EpsilonClearing.init DC1 1).select 0).reset.selected =
        ((EpsilonClearing.init DC1 1).select 0).selected ∧
    (∀ i < ((EpsilonClearing.init DC1 1).select 0).n,
      ((EpsilonClearing.init DC1 1).select 0).reset.C.getD i false =
        decide (i ∈ ((EpsilonClearing.init DC1 1).select 0).S)) ∧
    (∀ j ∈ ((EpsilonClearing.init DC1 1).select 0).remaining,
      j ∈ ((EpsilonClearing.init DC1 1).select 0).reset.remaining) :=
  C8_reset_effect ((EpsilonClearing.init DC1 1).select 0) (by decide) (by decide)

/-! ## Part 2: `pymoo/model/algorithm.py`

The driver is embedded as follows: the attributes of the `Algorithm`
object that the control flow reads are collected in a record; the
overridable hooks `_initialize` / `_next` become the fields `init` /
`next` (a concrete algorithm hook `_next` may read the whole driver state —
generation counter and population are the parts observable here);
`termination.do_continue(self)` becomes a Boolean predicate on that
observable state; `NonDominatedSorting().do(F, only_non_dominated_front
= True)` is an oracle field returning the indices of the first front.
`verbose` display printing and the `callback` are pure I/O side effects
with no influence on the returned data and are not part of the model;
the observable effect of `_each_iteration` is its history append. -/

/-- The problem abstraction: the driver only reads `problem.n_obj`. -/
structure Problem where
  n_obj : ℕ
  deriving Repr, DecidableEq

/-- A history snapshot: `copy.deepcopy(self)` with `history` and
`callback` nulled out; its observable content is the generation counter
`n_gen` and the population. -/
abbrev Snapshot := ℕ × Population

/-- The driver configuration and hook attributes. -/
structure Algorithm where
  termination : Option (ℕ → Population → Bool)
  save_history : Bool
  init : Population
  next : ℕ → Population → Population
  opt : Option Population
  nds : List (List ℚ) → List ℕ

namespace Algorithm

/-- Method `_each_iteration`: when `save_history` is set, append a deep-copied
snapshot of the driver state to the history (display and callback are
I/O only). -/
def eachIteration (save_history : Bool) (hist : List Snapshot)
    (n_gen : ℕ) (pop : Population) : List Snapshot :=
  if save_history then hist ++ [(n_gen, pop)] else hist

/-- The `while termination.do_continue(self)` loop of `_solve`, with
explicit fuel; `none` models a run that does not finish within `fuel`
generations. Each iteration increments `n_gen`, replaces the population
via `_next` and runs the bookkeeping pass. -/
def solveLoop (dc : ℕ → Population → Bool) (nxt : ℕ → Population → Population)
    (sh : Bool) : ℕ → ℕ → Population → List Snapshot →
    Option (ℕ × Population × List Snapshot)
  | 0, n_gen, pop, hist => if dc n_gen pop then none else some (n_gen, pop, hist)
  | fuel + 1, n_gen, pop, hist =>
      if dc n_gen pop then
        solveLoop dc nxt sh fuel (n_gen + 1) (nxt (n_gen + 1) pop)
          (eachIteration sh hist (n_gen + 1) (nxt (n_gen + 1) pop))
      else some (n_gen, pop, hist)

/-- Method `_solve(problem)`: raises when no termination criterion is set;
otherwise sets `n_gen = 1`, creates the initial population, runs the
first bookkeeping pass, then the generational loop (`_finalize` is a
no-op). Returns the final generation counter, population and history. -/
def solveCore (a : Algorithm) (fuel : ℕ) :
    Except String (ℕ × Population × List Snapshot) :=
  match a.termination with
  | none => .error "No termination criterion defined and algorithm has no default termination implemented!"
  | some dc =>
      match solveLoop dc a.next a.save_history fuel 1 a.init
          (eachIteration a.save_history [] 1 a.init) with
      | none => .error "ran out of fuel"
      | some r => .ok r

end Algorithm

/-- The values assigned to `res.X, res.F, res.CV, res.G`: in the
multi-objective branch they are the column stacks over the front
members, in the single-objective branch the fields of the single
optimal individual. -/
inductive FieldVals where
  | multi (X F : List (List ℚ)) (CV : List ℚ) (G : List (List ℚ))
  | single (X F : List ℚ) (CV : ℚ) (G : List ℚ)
  deriving Repr, DecidableEq

/-- The `opt` passed to the `Result` constructor: a sub-population in
the multi-objective branch, a single individual in the single-objective
branch, absent when no feasible individual exists. -/
inductive OptSet where
  | popul : Population → OptSet
  | single : Individual → OptSet
  deriving Repr, DecidableEq

/-- The `Result` object as populated by `Algorithm.solve`: the optimal
set, the `opt is None` flag, the optimal fields `X/F/CV/G` (set
together, hence one `Option`), the final population and the history. -/
structure Result where
  opt : Option OptSet
  no_feasible : Bool
  vals : Option FieldVals
  pop : Population
  history : List Snapshot
  deriving Repr, DecidableEq

/-- The optimal-candidate pool of `solve`: the algorithm-maintained
`opt` if present, else the final population, filtered to the feasible
individuals (`opt[opt.collect(lambda ind: ind.feasible)[:, 0]]`). -/
def optPool (a : Algorithm) (pop : Population) : Population :=
  (a.opt.getD pop).filter (fun ind => ind.feasible)

/-- Method `Algorithm.solve`: run `_solve`, then extract the optimal set and
populate the `Result` (seeding, evaluator installation and the
`FunctionLoader` warning are I/O / collaborator plumbing outside the
model). `np.argmin(opt.get("F"))` flattens the stacked objective
matrix, hence the `join`. -/
def Algorithm.solve (a : Algorithm) (problem : Problem) (fuel : ℕ) :
    Except String Result :=
  match a.solveCore fuel with
  | .error e => .error e
  | .ok (_, pop, hist) =>
      let fopt := optPool a pop
      if 0 < fopt.length then
        if 1 < problem.n_obj then
          match getIndices fopt (a.nds (fopt.map (fun ind => ind.F))) with
          | none => .error "IndexError"
          | some optI =>
              .ok { opt := some (.popul optI), no_feasible := false,
                    vals := some (.multi (optI.map (fun i => i.X)) (optI.map (fun i => i.F))
                      (optI.map (fun i => i.CV)) (optI.map (fun i => i.G))),
                    pop := pop, history := hist }
        else
          match fopt.get? (argminQ ((fopt.map (fun ind => ind.F)).flatten)) with
          | none => .error "IndexError"
          | some ind =>
              .ok { opt := some (.single ind), no_feasible := false,
                    vals := some (.single ind.X ind.F ind.CV ind.G),
                    pop := pop, history := hist }
      else
        .ok { opt := none, no_feasible := true, vals := none, pop := pop, history := hist }

/-- C5: with no termination criterion resolvable, `_solve` (and
hence `solve`) fails immediately with the missing-termination error.
The statement is universally quantified over the `init` and `next`
hooks and the fuel: the error value does not depend on them, so the
failure happens before any population is initialized and before any
generation executes, and nothing is retried. -/
theorem C5_missing_termination (sh : Bool) (ip : Population)
    (nxt : ℕ → Population → Population) (o : Option Population)
    (nds : List (List ℚ) → List ℕ) (pb : Problem) (fuel : ℕ) :
    Algorithm.solveCore ⟨none, sh, ip, nxt, o, nds⟩ fuel =
      .error "No termination criterion defined and algorithm has no default termination implemented!" ∧
    Algorithm.solve ⟨none, sh, ip, nxt, o, nds⟩ pb fuel =
      .error "No termination criterion defined and algorithm has no default termination implemented!" :=
  ⟨rfl, rfl⟩

/-- Per-iteration history accounting of the generation loop: on success
the history grows by exactly one snapshot per generation executed when
`save_history` is set, and is left untouched otherwise. -/
theorem solveLoop_history (dc : ℕ → Population → Bool)
    (nxt : ℕ → Population → Population) (sh : Bool) :
    ∀ (fuel n_gen : ℕ) (pop : Population) (hist : List Snapshot)
      (g : ℕ) (p : Population) (h : List Snapshot),
      Algorithm.solveLoop dc nxt sh fuel n_gen pop hist = some (g, p, h) →
      (sh = true → h.length + n_gen = hist.length + g) ∧ (sh = false → h = hist) := by
  intro fuel
  induction fuel with
  | zero =>
      intro n_gen pop hist g p h heq
      unfold Algorithm.solveLoop at heq
      split at heq
      · simp at heq
      · injection heq with heq'
        injection heq' with h1 heq''
        injection heq'' with h2 h3
        subst h1; subst h2; subst h3
        exact ⟨fun _ => rfl, fun _ => rfl⟩
  | succ fuel ih =>
      intro n_gen pop hist g p h heq
      unfold Algorithm.solveLoop at heq
      split at heq
      · have hrec := ih _ _ _ _ _ _ heq
        constructor
        · intro hsh
          have h1 := hrec.1 hsh
          simp only [Algorithm.eachIteration, hsh, if_true, List.length_append,
            List.length_cons, List.length_nil] at h1
          omega
        · intro hsh
          have h2 := hrec.2 hsh
          simpa [Algorithm.eachIteration, hsh] using h2
      · injection heq with heq'
        injection heq' with h1 heq''
        injection heq'' with h2 h3
        subst h1; subst h2; subst h3
        exact ⟨fun _ => rfl, fun _ => rfl⟩

/-- C6: for every completed run, with `save_history` the history has
one snapshot per generation executed including the initial one (its
length equals the final generation counter), without it the history is
empty; if the termination predicate is false immediately, the initial
population is still created and bookkept exactly once (counter 1, one
snapshot); and `solve` attaches exactly this history to the `Result`. -/
theorem C6_history_length (a : Algorithm) (fuel g : ℕ) (pop : Population)
    (hist : List Snapshot)
    (hok : a.solveCore fuel = .ok (g, pop, hist)) :
    (a.save_history = true → hist.length = g) ∧
    (a.save_history = false → hist = []) ∧
    (∀ dc, a.termination = some dc → dc 1 a.init = false →
      g = 1 ∧ pop = a.init ∧ (a.save_history = true → hist = [(1, a.init)])) ∧
    (∀ (pb : Problem) (res : Result), Algorithm.solve a pb fuel = .ok res →
      res.history = hist) := by
  have hok' := hok
  unfold Algorithm.solveCore at hok
  split at hok
  · simp at hok
  · rename_i dc' hterm
    split at hok
    · simp at hok
    · rename_i r hloop
      injection hok with hok2
      subst hok2
      have hacct := solveLoop_history dc' a.next a.save_history fuel 1 a.init
        (Algorithm.eachIteration a.save_history [] 1 a.init) g pop hist hloop
      refine ⟨?_, ?_, ?_, ?_⟩
      · intro hsh
        have h1 := hacct.1 hsh
        simp only [Algorithm.eachIteration, hsh, if_true, List.length_append,
          List.length_cons, List.length_nil, List.nil_append] at h1
        omega
      · intro hsh
        have h2 := hacct.2 hsh
        simpa [Algorithm.eachIteration, hsh] using h2
      · intro dc hdc hfalse
        have hdceq : dc' = dc := by
          rw [hterm] at hdc
          injection hdc
        rw [← hdceq] at hfalse
        have hstop : Algorithm.solveLoop dc' a.next a.save_history fuel 1 a.init
            (Algorithm.eachIteration a.save_history [] 1 a.init) =
            some (1, a.init, Algorithm.eachIteration a.save_history [] 1 a.init) := by
          cases fuel <;> simp [Algorithm.solveLoop, hfalse]
        rw [hstop] at hloop
        injection hloop with hloop'
        injection hloop' with h1 hloop''
        injection hloop'' with h2 h3
        subst h1; subst h2
        refine ⟨rfl, rfl, ?_⟩
        intro hsh
        rw [← h3]
        simp [Algorithm.eachIteration, hsh]
      · intro pb res hres
        unfold Algorithm.solve at hres
        rw [hok'] at hres
        dsimp only at hres
        split at hres
        · split at hres
          · split at hres
            · simp at hres
            · injection hres with hres'
              subst hres'
              rfl
          · split at hres
            · simp at hres
            · injection hres with hres'
              subst hres'
              rfl
        · injection hres with hres'
          subst hres'
          rfl

theorem isEmpty_eq_false_of_ne {α : Type} (l : List α) (h : l ≠ []) :
    l.isEmpty = false := by
  cases l with
  | nil => exact absurd rfl h
  | cons a l => rfl

/-- C2: for every completed run, the optimal fields of the `Result`
(`X/F/CV/G`, modelled as `vals`) and its `opt` are populated iff the
feasible filtered optimal pool is non-empty; when the pool is empty the
fields are absent, the no-feasible-solution flag is true, and the run
still returns normally with exactly that `Result`. -/
theorem C2_optimal_fields_iff (a : Algorithm) (pb : Problem) (fuel g : ℕ)
    (pop : Population) (hist : List Snapshot)
    (hok : a.solveCore fuel = .ok (g, pop, hist)) :
    (∀ res : Result, Algorithm.solve a pb fuel = .ok res →
      (res.vals.isSome = true ↔ optPool a pop ≠ []) ∧
      (res.opt.isSome = true ↔ optPool a pop ≠ []) ∧
      res.no_feasible = (optPool a pop).isEmpty) ∧
    (optPool a pop = [] →
      Algorithm.solve a pb fuel =
        .ok { opt := none, no_feasible := true, vals := none, pop := pop, history := hist }) := by
  constructor
  · intro res hres
    unfold Algorithm.solve at hres
    rw [hok] at hres
    dsimp only at hres
    split at hres
    · rename_i hlen
      have hne : optPool a pop ≠ [] := List.length_pos.mp hlen
      split at hres
      · split at hres
        · simp at hres
        · injection hres with hres2
          subst hres2
          exact ⟨by simp [hne], by simp [hne], by rw [isEmpty_eq_false_of_ne _ hne]⟩
      · split at hres
        · simp at hres
        · injection hres with hres2
          subst hres2
          exact ⟨by simp [hne], by simp [hne], by rw [isEmpty_eq_false_of_ne _ hne]⟩
    · rename_i hlen
      have hempty : optPool a pop = [] :=
        List.length_eq_zero.mp (Nat.eq_zero_of_not_pos hlen)
      injection hres with hres2
      subst hres2
      exact ⟨by simp [hempty], by simp [hempty], by simp [hempty]⟩
  · intro hempty
    simp [Algorithm.solve, hok, hempty]

/-- Default individual used only as a `getD` fallback in statements. -/
def dummyInd : Individual :=
  { X := [], F := [], CV := 0, G := [], feasible := false }

theorem listGet?_eq_getD {α : Type} (l : List α) (j : ℕ) (d : α) (h : j < l.length) :
    l.get? j = some (l.getD j d) := by
  induction l generalizing j with
  | nil => simp at h
  | cons a l ih =>
      match j with
      | 0 => rfl
      | j + 1 => exact ih j (by simpa using h)

/-- On a single-objective population (all objective rows of length 1)
the stacked objective matrix flattens to the list of first-objective
values, so `np.argmin(opt.get("F"))` indexes individuals. -/
theorem flatten_map_F (l : List Individual) (h : ∀ ind ∈ l, ind.F.length = 1) :
    (l.map (fun ind => ind.F)).flatten = l.map (fun ind => ind.F.getD 0 0) := by
  induction l with
  | nil => rfl
  | cons a l ih =>
      obtain ⟨x, hx⟩ := List.length_eq_one.mp (h a (by simp))
      simp only [List.map_cons, List.flatten_cons, hx,
        ih (fun ind hind => h ind (by simp [hind]))]
      rfl

/-- C3: on a single-objective problem with a non-empty feasible
pool (whose objective rows have length 1, as the evaluator guarantees),
the returned optimal set is the single individual at the first index
minimising the objective: its objective is `≤` that of every feasible
individual in the pool, and every index before the chosen one has a
strictly larger objective (stable argmin). -/
theorem C3_single_objective_argmin (a : Algorithm) (pb : Problem) (fuel g : ℕ)
    (pop : Population) (hist : List Snapshot)
    (hok : a.solveCore fuel = .ok (g, pop, hist))
    (hobj : pb.n_obj = 1)
    (hne : optPool a pop ≠ [])
    (hF : ∀ ind ∈ optPool a pop, ind.F.length = 1) :
    ∃ ind : Individual,
      (optPool a pop).get? (argminQ ((optPool a pop).map (fun i => i.F.getD 0 0))) =
        some ind ∧
      Algorithm.solve a pb fuel = .ok
        { opt := some (.single ind), no_feasible := false,
          vals := some (.single ind.X ind.F ind.CV ind.G), pop := pop, history := hist } ∧
      (∀ ind' ∈ optPool a pop, ind.F.getD 0 0 ≤ ind'.F.getD 0 0) ∧
      (∀ j < argminQ ((optPool a pop).map (fun i => i.F.getD 0 0)),
        ind.F.getD 0 0 < ((optPool a pop).map (fun i => i.F.getD 0 0)).getD j 0) := by
  have hflat : ((optPool a pop).map (fun ind => ind.F)).flatten =
      (optPool a pop).map (fun i => i.F.getD 0 0) := flatten_map_F _ hF
  have hfsne : (optPool a pop).map (fun i => i.F.getD 0 0) ≠ [] := by
    intro hemp
    exact hne (List.map_eq_nil_iff.mp hemp)
  have hlt := argminQ_lt_length _ hfsne
  have hlenmap : ((optPool a pop).map (fun i => i.F.getD 0 0)).length =
      (optPool a pop).length := List.length_map _ _
  have hltf : argminQ ((optPool a pop).map (fun i => i.F.getD 0 0)) <
      (optPool a pop).length := hlenmap ▸ hlt
  have hget := listGet?_eq_getD (optPool a pop) _ dummyInd hltf
  refine ⟨(optPool a pop).getD
      (argminQ ((optPool a pop).map (fun i => i.F.getD 0 0))) dummyInd, hget, ?_, ?_, ?_⟩
  · unfold Algorithm.solve
    rw [hok]
    dsimp only
    rw [if_pos (List.length_pos.mpr hne), hobj, if_neg (lt_irrefl 1), hflat, hget]
  · intro ind' hmem
    obtain ⟨j, hj, hjl⟩ := List.getElem_of_mem hmem
    have hjfs : j < ((optPool a pop).map (fun i => i.F.getD 0 0)).length :=
      hlenmap ▸ hj
    have hmin := argminQ_min ((optPool a pop).map (fun i => i.F.getD 0 0)) j hjfs
    have heq1 : ((optPool a pop).map (fun i => i.F.getD 0 0)).getD
        (argminQ ((optPool a pop).map (fun i => i.F.getD 0 0))) 0 =
        ((optPool a pop).getD
          (argminQ ((optPool a pop).map (fun i => i.F.getD 0 0))) dummyInd).F.getD 0 0 :=
      listGetD_map _ _ _ dummyInd 0 hltf
    have heq2 : ((optPool a pop).map (fun i => i.F.getD 0 0)).getD j 0 =
        ((optPool a pop).getD j dummyInd).F.getD 0 0 :=
      listGetD_map _ _ _ dummyInd 0 hj
    have heq3 : (optPool a pop).getD j dummyInd = ind' := by
      rw [List.getD_eq_getElem _ _ hj]
      exact hjl
    rw [heq1, heq2, heq3] at hmin
    exact hmin
  · intro j hj
    have hfirst := argminQ_first ((optPool a pop).map (fun i => i.F.getD 0 0)) j hj
    have heq1 : ((optPool a pop).map (fun i => i.F.getD 0 0)).getD
        (argminQ ((optPool a pop).map (fun i => i.F.getD 0 0))) 0 =
        ((optPool a pop).getD
          (argminQ ((optPool a pop).map (fun i => i.F.getD 0 0))) dummyInd).F.getD 0 0 :=
      listGetD_map _ _ _ dummyInd 0 hltf
    rw [heq1] at hfirst
    exact hfirst

/-- Modelled from the spec: the Pareto domination relation on objective
vectors (glossary "Non-dominated front"), used only to state correctness
of the external `NonDominatedSorting` oracle, which is consumed as a
black box and is not among the sources of this repository: `f` dominates
`g` iff `f` is nowhere worse and somewhere strictly better. -/
def dominatesB (f g : List ℚ) : Bool :=
  decide (∀ i < f.length, f.getD i 0 ≤ g.getD i 0) &&
  decide (∃ i < f.length, f.getD i 0 < g.getD i 0)

theorem getIndices_eq_map {α : Type} (l : List α) (d : α) :
    ∀ I : List ℕ, (∀ i ∈ I, i < l.length) →
      getIndices l I = some (I.map (fun i => l.getD i d))
  | [], _ => rfl
  | i :: is, h => by
      have hi : i < l.length := h i (by simp)
      have hrec := getIndices_eq_map l d is (fun j hj => h j (by simp [hj]))
      unfold getIndices
      rw [listGet?_eq_getD l i d hi, hrec]
      rfl

theorem mem_of_mem_map_getD {α : Type} (l : List α) (d : α) (I : List ℕ)
    (h : ∀ i ∈ I, i < l.length) (a : α)
    (ha : a ∈ I.map (fun i => l.getD i d)) : a ∈ l := by
  obtain ⟨i, hiI, rfl⟩ := List.mem_map.mp ha
  have hi := h i hiI
  rw [List.getD_eq_getElem _ _ hi]
  exact List.getElem_mem hi

/-- C4: on a multi-objective problem with a non-empty feasible pool,
the returned optimal set is exactly the pool members at the indices of
the first front produced by the sorting oracle; and if the oracle is
correct (it returns in-range indices of individuals that nobody in the
pool dominates), then every member of the returned set is feasible and
no member dominates another member. -/
theorem C4_multi_objective_front (a : Algorithm) (pb : Problem) (fuel g : ℕ)
    (pop : Population) (hist : List Snapshot)
    (hok : a.solveCore fuel = .ok (g, pop, hist))
    (hobj : 1 < pb.n_obj)
    (hne : optPool a pop ≠ [])
    (hbound : ∀ i ∈ a.nds ((optPool a pop).map (fun ind => ind.F)),
      i < (optPool a pop).length)
    (horacle : ∀ i ∈ a.nds ((optPool a pop).map (fun ind => ind.F)),
      ∀ j < ((optPool a pop).map (fun ind => ind.F)).length,
        dominatesB (((optPool a pop).map (fun ind => ind.F)).getD j [])
          (((optPool a pop).map (fun ind => ind.F)).getD i []) = false) :
    ∃ optI : Population,
      getIndices (optPool a pop) (a.nds ((optPool a pop).map (fun ind => ind.F))) =
        some optI ∧
      optI = (a.nds ((optPool a pop).map (fun ind => ind.F))).map
        (fun i => (optPool a pop).getD i dummyInd) ∧
      Algorithm.solve a pb fuel = .ok
        { opt := some (.popul optI), no_feasible := false,
          vals := some (.multi (optI.map (fun i => i.X)) (optI.map (fun i => i.F))
            (optI.map (fun i => i.CV)) (optI.map (fun i => i.G))),
          pop := pop, history := hist } ∧
      (∀ b ∈ optI, b.feasible = true) ∧
      (∀ b1 ∈ optI, ∀ b2 ∈ optI, dominatesB b1.F b2.F = false) := by
  have hgi := getIndices_eq_map (optPool a pop) dummyInd
    (a.nds ((optPool a pop).map (fun ind => ind.F))) hbound
  refine ⟨_, hgi, rfl, ?_, ?_, ?_⟩
  · unfold Algorithm.solve
    rw [hok]
    dsimp only
    rw [if_pos (List.length_pos.mpr hne), if_pos hobj, hgi]
  · intro b hb
    have hbmem : b ∈ optPool a pop :=
      mem_of_mem_map_getD (optPool a pop) dummyInd _ hbound b hb
    unfold optPool at hbmem
    exact (List.mem_filter.mp hbmem).2
  · intro b1 hb1 b2 hb2
    obtain ⟨i1, hi1, rfl⟩ := List.mem_map.mp hb1
    obtain ⟨i2, hi2, rfl⟩ := List.mem_map.mp hb2
    have hlen1 : i1 < ((optPool a pop).map (fun ind => ind.F)).length := by
      rw [List.length_map]
      exact hbound i1 hi1
    have horc := horacle i2 hi2 i1 hlen1
    have he1 : ((optPool a pop).map (fun ind => ind.F)).getD i1 [] =
        ((optPool a pop).getD i1 dummyInd).F :=
      listGetD_map _ _ _ dummyInd [] (hbound i1 hi1)
    have he2 : ((optPool a pop).map (fun ind => ind.F)).getD i2 [] =
        ((optPool a pop).getD i2 dummyInd).F :=
      listGetD_map _ _ _ dummyInd [] (hbound i2 hi2)
    rw [he1, he2] at horc
    exact horc

/-! ### Concrete runs used as witnesses -/

/-- A termination predicate whose `do_continue` is false immediately. -/
def stopNow : ℕ → Population → Bool := fun _ _ => false

/-- Run with a single infeasible individual: the feasible pool is empty. -/
def algNoFeas : Algorithm :=
  { termination := some stopNow, save_history := false,
    init := [{ X := [0], F := [1], CV := 1, G := [1], feasible := false }],
    next := fun _ p => p, opt := none, nds := fun _ => [] }

/-- Single-objective run with two feasible individuals, objectives 5 and 3. -/
def algSingle : Algorithm :=
  { termination := some stopNow, save_history := false,
    init := [{ X := [0], F := [5], CV := 0, G := [0], feasible := true },
             { X := [1], F := [3], CV := 0, G := [0], feasible := true }],
    next := fun _ p => p, opt := none, nds := fun _ => [] }

/-- Two-objective run with two mutually non-dominated feasible
individuals and an oracle returning the full front `[0, 1]`. -/
def algMulti : Algorithm :=
  { termination := some stopNow, save_history := true,
    init := [{ X := [0], F := [0, 1], CV := 0, G := [0], feasible := true },
             { X := [1], F := [1, 0], CV := 0, G := [0], feasible := true }],
    next := fun _ p => p, opt := none, nds := fun _ => [0, 1] }

/-- History-saving run that executes two loop iterations (the
termination predicate continues while `n_gen < 3`). -/
def algHist : Algorithm :=
  { termination := some (fun n _ => decide (n < 3)), save_history := true,
    init := [{ X := [0], F := [5], CV := 0, G := [0], feasible := true }],
    next := fun _ p => p, opt := none, nds := fun _ => [] }

/-- C2 witness: the no-feasible run returns normally with absent
optimal fields and the flag set. -/
theorem C2_optimal_fields_iff_witness :
    (∀ res : Result, Algorithm.solve algNoFeas ⟨1⟩ 1 = .ok res →
      (res.vals.isSome = true ↔ optPool algNoFeas algNoFeas.init ≠ []) ∧
      (res.opt.isSome = true ↔ optPool algNoFeas algNoFeas.init ≠ []) ∧
      res.no_feasible = (optPool algNoFeas algNoFeas.init).isEmpty) ∧
    (optPool algNoFeas algNoFeas.init = [] →
      Algorithm.solve algNoFeas ⟨1⟩ 1 =
        .ok { opt := none, no_feasible := true, vals := none,
              pop := algNoFeas.init, history := [] }) :=
  C2_optimal_fields_iff algNoFeas ⟨1⟩ 1 1 algNoFeas.init [] rfl

/-- C3 witness: the single-objective run selects the individual with
objective 3 (index 1), the true stable minimum of the pool. -/
theorem C3_single_objective_argmin_witness :
    ∃ ind : Individual,
      (optPool algSingle algSingle.init).get?
        (argminQ ((optPool algSingle algSingle.init).map (fun i => i.F.getD 0 0))) =
        some ind ∧
      Algorithm.solve algSingle ⟨1⟩ 1 = .ok
        { opt := some (.single ind), no_feasible := false,
          vals := some (.single ind.X ind.F ind.CV ind.G),
          pop := algSingle.init, history := [] } ∧
      (∀ ind' ∈ optPool algSingle algSingle.init,
        ind.F.getD 0 0 ≤ ind'.F.getD 0 0) ∧
      (∀ j < argminQ ((optPool algSingle algSingle.init).map (fun i => i.F.getD 0 0)),
        ind.F.getD 0 0 <
          ((optPool algSingle algSingle.init).map (fun i => i.F.getD 0 0)).getD j 0) :=
  C3_single_objective_argmin algSingle ⟨1⟩ 1 1 algSingle.init [] rfl rfl
    (by decide) (by decide)

/-- C4 witness: the two-objective run returns exactly the pool
members at the front indices of the oracle `[0, 1]`; both are feasible and
neither dominates the other. -/
theorem C4_multi_objective_front_witness :
    ∃ optI : Population,
      getIndices (optPool algMulti algMulti.init)
        (algMulti.nds ((optPool algMulti algMulti.init).map (fun ind => ind.F))) =
        some optI ∧
      optI = (algMulti.nds ((optPool algMulti algMulti.init).map (fun ind => ind.F))).map
        (fun i => (optPool algMulti algMulti.init).getD i dummyInd) ∧
      Algorithm.solve algMulti ⟨2⟩ 1 = .ok
        { opt := some (.popul optI), no_feasible := false,
          vals := some (.multi (optI.map (fun i => i.X)) (optI.map (fun i => i.F))
            (optI.map (fun i => i.CV)) (optI.map (fun i => i.G))),
          pop := algMulti.init, history := [(1, algMulti.init)] } ∧
      (∀ b ∈ optI, b.feasible = true) ∧
      (∀ b1 ∈ optI, ∀ b2 ∈ optI, dominatesB b1.F b2.F = false) :=
  C4_multi_objective_front algMulti ⟨2⟩ 1 1 algMulti.init [(1, algMulti.init)] rfl
    (by decide) (by decide) (by decide) (by decide)

/-- C6 witness: a history-saving run over three generations records
exactly three snapshots, and `solve` attaches them to the `Result`. -/
theorem C6_history_length_witness :
    (algHist.save_history = true →
      ([(1, algHist.init), (2, algHist.init), (3, algHist.init)] : List Snapshot).length = 3) ∧
    (algHist.save_history = false →
      ([(1, algHist.init), (2, algHist.init), (3, algHist.init)] : List Snapshot) = []) ∧
    (∀ dc, algHist.termination = some dc → dc 1 algHist.init = false →
      3 = 1 ∧ algHist.init = algHist.init ∧
      (algHist.save_history = true →
        ([(1, algHist.init), (2, algHist.init), (3, algHist.init)] : List Snapshot) =
          [(1, algHist.init)])) ∧
    (∀ (pb : Problem) (res : Result), Algorithm.solve algHist pb 5 = .ok res →
      res.history = [(1, algHist.init), (2, algHist.init), (3, algHist.init)]) :=
  C6_history_length algHist 5 3 algHist.init
    [(1, algHist.init), (2, algHist.init), (3, algHist.init)] rfl
